import Mathlib

set_option maxHeartbeats 1000000

/-! Shallow embedding of the Buy Line → Vendor Name mapper
(src/streamlit_app.py): the code normalizer `normalize_code`, the
mapping-store ingest `update_master_mapping`, and the rewrite operation
`apply_mapping_to_file2`, together with proofs of the specified
properties.

Modelling notes:
- Cell values (`PyVal`) cover the value kinds the program manipulates:
  missing values (None/NaN), strings, and floats of integral value
  (`PyVal.vFloat n` stands for the Python float whose value is the
  integer `n`; its `str` form is "n.0", as Python prints integral floats
  of moderate magnitude).
- Python `int(float(s))` is modelled by exact decimal arithmetic on the
  literal (`tryIntFloat`): the grammar of finite `float` literals (sign,
  digit runs with single underscores between digits, optional fraction
  and exponent) is parsed exactly and the value truncated toward zero;
  `inf`/`nan` literals make `int` raise in Python and are therefore
  parse failures here.  IEEE-754 rounding and overflow to infinity are
  not modelled, and only ASCII digits and whitespace are treated (Python
  additionally accepts Unicode forms); the claims below are insensitive
  to these differences.
- DataFrames are rectangular tables `DF` (column-name list + row lists);
  pandas column assignment, left merge on `code_norm`, `np.where`, and
  column drops are modelled positionally.
-/

/-- Cell values: missing (None/NaN), strings, and integral-valued floats. -/
inductive PyVal where
  | vNone : PyVal
  | vStr : String → PyVal
  | vFloat : Int → PyVal
deriving DecidableEq

/-- Model of `pd.isna` on the values above. -/
def pdIsna : PyVal → Bool
  | PyVal.vNone => true
  | _ => false

/-- Decimal digit character for a value below ten. -/
def digitChar10 : Nat → Char
  | 0 => '0'
  | 1 => '1'
  | 2 => '2'
  | 3 => '3'
  | 4 => '4'
  | 5 => '5'
  | 6 => '6'
  | 7 => '7'
  | 8 => '8'
  | 9 => '9'
  | _ => '?'

/-- Numeric value of a digit character. -/
def digitVal (c : Char) : Nat := c.toNat - 48

/-- Value of a big-endian digit list. -/
def natOfDigits (ds : List Char) : Nat :=
  ds.foldl (fun a c => 10 * a + digitVal c) 0

/-- Fuelled big-endian decimal digits of a natural number. -/
def natDigitsF : Nat → Nat → List Char
  | 0, _ => []
  | fuel + 1, n =>
    if n < 10 then [digitChar10 n]
    else natDigitsF fuel (n / 10) ++ [digitChar10 (n % 10)]

/-- Big-endian decimal digits of a natural number. -/
def natDigits (n : Nat) : List Char := natDigitsF (n + 1) n

/-- Model of Python `str` on an `int` value: canonical base-10 form. -/
def pyIntStr (v : Int) : String :=
  if v < 0 then String.mk ('-' :: natDigits (-v).toNat)
  else String.mk (natDigits v.toNat)

/-- ASCII whitespace stripped by Python `str.strip()`. -/
def isPySpace (c : Char) : Bool :=
  c = ' ' || c = '\t' || c = '\n' || c = '\r' || c = '\x0b' || c = '\x0c'

/-- Strip leading whitespace. -/
def stripL (l : List Char) : List Char := l.dropWhile isPySpace

/-- Strip trailing whitespace. -/
def stripR (l : List Char) : List Char := (l.reverse.dropWhile isPySpace).reverse

/-- Strip surrounding whitespace from a character list. -/
def stripList (l : List Char) : List Char := stripR (stripL l)

/-- Model of Python `str.strip()`. -/
def pyStrip (s : String) : String := String.mk (stripList s.data)

/-- Continue a digit run after a digit was read: further digits, with
single underscores allowed between digits (Python numeric literals). -/
def digCont : List Char → List Char × List Char
  | [] => ([], [])
  | c :: rest =>
    if c.isDigit then
      let p := digCont rest
      (c :: p.1, p.2)
    else if c = '_' then
      match rest with
      | [] => ([], ['_'])
      | d :: rest2 =>
        if d.isDigit then
          let p := digCont rest2
          (d :: p.1, p.2)
        else ([], c :: d :: rest2)
    else ([], c :: rest)

/-- A digit run (possibly empty); must begin with a digit. -/
def digRun : List Char → List Char × List Char
  | [] => ([], [])
  | c :: rest =>
    if c.isDigit then
      let p := digCont rest
      (c :: p.1, p.2)
    else ([], c :: rest)

/-- Optional sign at the front of a numeric literal. -/
def parseSign (l : List Char) : Bool × List Char :=
  match l with
  | [] => (false, [])
  | c :: r => if c = '+' then (false, r) else if c = '-' then (true, r) else (false, c :: r)

/-- Exponent part (after `e`/`E`): optional sign and a digit run that
must consume the rest of the input. -/
def parseExpPart (l : List Char) : Option Int :=
  let sp := parseSign l
  let p := digRun sp.2
  if p.1 = [] ∨ p.2 ≠ [] then none
  else some (if sp.1 then -(natOfDigits p.1 : Int) else (natOfDigits p.1 : Int))

/-- Components of a finite Python float literal. -/
structure PyFloatParse where
  neg : Bool
  ip : List Char
  fp : List Char
  ex : Int
deriving DecidableEq

/-- Parse a finite Python float literal (whitespace already stripped):
sign, integer digits, optional `.` and fraction digits, optional
exponent.  `none` when Python `float(s)` raises, or yields a non-finite
value on which `int` raises. -/
def parsePyFloat (cs : List Char) : Option PyFloatParse :=
  let sp := parseSign cs
  let p1 := digRun sp.2
  let fr : List Char × List Char :=
    match p1.2 with
    | [] => ([], [])
    | c :: r3 => if c = '.' then digRun r3 else ([], c :: r3)
  if p1.1 = [] ∧ fr.1 = [] then none
  else
    match fr.2 with
    | [] => some ⟨sp.1, p1.1, fr.1, 0⟩
    | c :: r5 =>
      if c = 'e' ∨ c = 'E' then
        match parseExpPart r5 with
        | some e => some ⟨sp.1, p1.1, fr.1, e⟩
        | none => none
      else none

/-- Truncate toward zero the value `(-1)^neg * m * 10^scale`. -/
def truncVal (neg : Bool) (m : Nat) (scale : Int) : Int :=
  let a : Nat := if 0 ≤ scale then m * 10 ^ scale.toNat else m / 10 ^ (-scale).toNat
  if neg then -(a : Int) else (a : Int)

/-- Model of Python `int(float(s))`; `none` when that expression raises. -/
def tryIntFloat (s : String) : Option Int :=
  (parsePyFloat s.data).map (fun q =>
    truncVal q.neg (natOfDigits (q.ip ++ q.fp)) (q.ex - q.fp.length))

/-- Model of Python `str` on a cell value (as used by `normalize_code`;
the `vNone` arm is unreachable there because of the `pd.isna` guard). -/
def pyStr : PyVal → String
  | PyVal.vNone => "None"
  | PyVal.vStr s => s
  | PyVal.vFloat n => pyIntStr n ++ ".0"

/-- `normalize_code` from src/streamlit_app.py: `None` for missing
values; otherwise strip the string form, return `str(int(float(s)))`
when that succeeds and the stripped string itself when it raises. -/
def normalize_code (x : PyVal) : Option String :=
  if pdIsna x then none
  else
    let s := pyStrip (pyStr x)
    match tryIntFloat s with
    | some v => some (pyIntStr v)
    | none => some s

/-- Pack an optional normalized code back into a cell value, as pandas
stores the result of `.apply(normalize_code)` (None becomes a missing
value). -/
def optStrToVal : Option String → PyVal
  | none => PyVal.vNone
  | some s => PyVal.vStr s

/-- A DataFrame: named columns and rows of cells (position `j` of a row
belongs to column `cols[j]`). -/
structure DF where
  cols : List String
  cells : List (List PyVal)
deriving DecidableEq

/-- A DataFrame is rectangular: every row has one cell per column. -/
def RectWF (df : DF) : Prop := ∀ r ∈ df.cells, r.length = df.cols.length

/-- First index of an element satisfying `p` (pandas label lookup). -/
def findIdxO (p : α → Bool) : List α → Option Nat
  | [] => none
  | a :: l => if p a then some 0 else (findIdxO p l).map (· + 1)

/-- Read the cell of a row at an optional column index. -/
def getCellAt (r : List PyVal) (i : Option Nat) : PyVal :=
  match i with
  | some j => r.getD j PyVal.vNone
  | none => PyVal.vNone

/-- Overwrite the cell of a row at an optional column index. -/
def setCellAt (r : List PyVal) (i : Option Nat) (v : PyVal) : List PyVal :=
  match i with
  | some j => r.set j v
  | none => r

/-- Remove the entry at an optional index (pandas `drop(columns=...)`
with `errors="ignore"`). -/
def eraseAt (r : List α) (i : Option Nat) : List α :=
  match i with
  | some j => r.eraseIdx j
  | none => r

/-- One row of the master mapping: `[code_norm, Buy Line, Vendor Name]`. -/
structure MapEntry where
  code : Option String
  buyLine : PyVal
  vendor : PyVal
deriving DecidableEq

/-- pandas `drop_duplicates(subset=["code_norm"], keep="last")`: keep
exactly the rows that are the last occurrence of their `code_norm`. -/
def dedupLast : List MapEntry → List MapEntry
  | [] => []
  | e :: rest =>
    if rest.any (fun x => decide (x.code = e.code)) then dedupLast rest
    else e :: dedupLast rest

/-- Outcome reported by the ingest operation (`st.error` on failure). -/
inductive IngestOutcome where
  | ok : IngestOutcome
  | schemaError : IngestOutcome
deriving DecidableEq

/-- `update_master_mapping` from src/streamlit_app.py: strip column
names, require `Buy Line` and `Vendor Name`, drop rows with a missing
`Buy Line`, normalize codes, concatenate onto the current store and keep
the last row per `code_norm`.  Returns the new store (unchanged on
schema failure) and the reported outcome. -/
def update_master_mapping (store : List MapEntry) (dfMap : DF) :
    List MapEntry × IngestOutcome :=
  let cols := dfMap.cols.map pyStrip
  if "Buy Line" ∈ cols ∧ "Vendor Name" ∈ cols then
    let bIdx := findIdxO (fun c => decide (c = "Buy Line")) cols
    let vIdx := findIdxO (fun c => decide (c = "Vendor Name")) cols
    let kept := dfMap.cells.filter (fun r => !pdIsna (getCellAt r bIdx))
    let entries := kept.map (fun r =>
      MapEntry.mk (normalize_code (getCellAt r bIdx)) (getCellAt r bIdx) (getCellAt r vIdx))
    (dedupLast (store ++ entries), IngestOutcome.ok)
  else (store, IngestOutcome.schemaError)

/-- Store lookup by normalized code (the store, after ingest, has at
most one entry per code, so first match is the match). -/
def lookupCode (store : List MapEntry) (c : String) : Option PyVal :=
  (store.find? (fun e => decide (e.code = some c))).map MapEntry.vendor

/-- Build a mapping upload: columns `Buy Line`, `Vendor Name`, one row
per (raw code, name) pair. -/
def mkMapDF (L : List (PyVal × PyVal)) : DF :=
  DF.mk ["Buy Line", "Vendor Name"] (L.map (fun p => [p.1, p.2]))

/-- Mapping entries produced from a batch of (raw code, name) rows:
rows with a missing raw code are dropped, the rest normalized. -/
def batchEntries (L : List (PyVal × PyVal)) : List MapEntry :=
  (L.filter (fun p => !pdIsna p.1)).map (fun p =>
    MapEntry.mk (normalize_code p.1) p.1 p.2)

/-- The name the batch itself assigns to normalized code `c`: the name
of the last row whose raw code normalizes to `c`. -/
def batchLookup (L : List (PyVal × PyVal)) (c : String) : Option PyVal :=
  (L.reverse.find? (fun p => decide (normalize_code p.1 = some c))).map (fun p => p.2)

/-- The column assignment `df2["code_norm"] = df2["manufacturer_Name"]
.apply(normalize_code)`: overwrite an existing `code_norm` column in
place, otherwise append it as a new last column. -/
def addCodeNormCol (df : DF) : DF :=
  let mIdx := findIdxO (fun c => decide (c = "manufacturer_Name")) df.cols
  let f : List PyVal → PyVal := fun r => optStrToVal (normalize_code (getCellAt r mIdx))
  match findIdxO (fun c => decide (c = "code_norm")) df.cols with
  | some j => DF.mk df.cols (df.cells.map (fun r => r.set j (f r)))
  | none => DF.mk (df.cols ++ ["code_norm"]) (df.cells.map (fun r => r ++ [f r]))

/-- Merge-key match: pandas joins `code_norm` cells on equality, and a
missing key matches nothing. -/
def keyMatch : PyVal → Option String → Bool
  | PyVal.vStr s, some c => decide (s = c)
  | _, _ => false

/-- Result of the rewrite operation: the returned frame, tagged with the
reported condition (`st.error` / `st.warning`), or an uncaught raise. -/
inductive ApplyResult where
  | missingColumn : DF → ApplyResult
  | emptyStore : DF → ApplyResult
  | ok : DF → ApplyResult
  | raised : ApplyResult
deriving DecidableEq

/-- `apply_mapping_to_file2` from src/streamlit_app.py: require the
`manufacturer_Name` column, add the `code_norm` helper column, bail out
(returning the working copy) when the store is empty, left-merge the
store's `[code_norm, Vendor Name]` slice on `code_norm`, use `np.where`
to replace `manufacturer_Name` where a `Vendor Name` was found, and drop
the helper columns.  When the input itself has a `Vendor Name` column
the merge suffixes both sides and the subsequent `merged["Vendor Name"]`
lookup raises `KeyError` (modelled as `raised`). -/
def apply_mapping_to_file2 (master : List MapEntry) (df2 : DF) : ApplyResult :=
  if "manufacturer_Name" ∈ df2.cols then
    let dfA := addCodeNormCol df2
    if master.isEmpty then ApplyResult.emptyStore dfA
    else if "Vendor Name" ∈ df2.cols then ApplyResult.raised
    else
      let cIdx := findIdxO (fun c => decide (c = "code_norm")) dfA.cols
      let mIdx := findIdxO (fun c => decide (c = "manufacturer_Name")) dfA.cols
      let blocks := dfA.cells.map (fun r =>
        let ms := master.filter (fun e => keyMatch (getCellAt r cIdx) e.code)
        if ms.isEmpty then [(r, PyVal.vNone)] else ms.map (fun e => (r, e.vendor)))
      let outRows := blocks.flatten.map (fun pr =>
        eraseAt (if pdIsna pr.2 then pr.1 else setCellAt pr.1 mIdx pr.2) cIdx)
      ApplyResult.ok (DF.mk (eraseAt dfA.cols cIdx) outRows)
  else ApplyResult.missingColumn df2

/-- Per-row specification of the rewrite: replace the lookup cell (at
column index `j`) by the mapped name when the normalized code has a
store entry, keep the row untouched otherwise. -/
def rowRewriteSpec (master : List MapEntry) (j : Nat) (r : List PyVal) : List PyVal :=
  match normalize_code (r.getD j PyVal.vNone) with
  | none => r
  | some c =>
    match lookupCode master c with
    | none => r
    | some v => r.set j v

/-- Columns of a successful rewrite result. -/
def resultCols : ApplyResult → Option (List String)
  | ApplyResult.ok df => some df.cols
  | _ => none

/-- Values of the listed columns, row by row (for frame comparisons). -/
def restrictCols (df : DF) (cs : List String) : List (List PyVal) :=
  df.cells.map (fun r => cs.map (fun c => getCellAt r (findIdxO (fun c2 => decide (c2 = c)) df.cols)))

/-- Store invariant: at most one entry per code, and no entry with a
missing code. -/
def StoreInv (s : List MapEntry) : Prop :=
  (s.map MapEntry.code).Nodup ∧ ∀ e ∈ s, e.code ≠ none

/-! ### Helper lemmas: stripping -/

theorem dropWhile_idem (p : Char → Bool) (l : List Char) :
    (l.dropWhile p).dropWhile p = l.dropWhile p := by
  induction l with
  | nil => rfl
  | cons c t ih =>
    by_cases h : p c
    · simp [List.dropWhile_cons, h, ih]
    · simp [List.dropWhile_cons, h]

theorem dropWhile_append_last (p : Char → Bool) (c : Char) (h : p c = false) (xs : List Char) :
    (xs ++ [c]).dropWhile p = xs.dropWhile p ++ [c] := by
  induction xs with
  | nil => simp [List.dropWhile_cons, h]
  | cons x t ih =>
    by_cases hx : p x
    · simp [List.dropWhile_cons, hx, ih]
    · simp [List.dropWhile_cons, hx]

theorem stripL_idem (l : List Char) : stripL (stripL l) = stripL l :=
  dropWhile_idem isPySpace l

theorem stripR_idem (l : List Char) : stripR (stripR l) = stripR l := by
  unfold stripR
  rw [List.reverse_reverse, dropWhile_idem]

theorem stripL_head_false (l : List Char) :
    stripL l = [] ∨ ∃ c t, stripL l = c :: t ∧ isPySpace c = false := by
  induction l with
  | nil => exact Or.inl rfl
  | cons c t ih =>
    by_cases h : isPySpace c
    · simpa [stripL, List.dropWhile_cons, h] using ih
    · exact Or.inr ⟨c, t, by simp [stripL, List.dropWhile_cons, h], by simpa using h⟩

theorem stripL_stripR (l : List Char) (h : stripL l = l) : stripL (stripR l) = stripR l := by
  cases l with
  | nil => rfl
  | cons c t =>
    have hc : isPySpace c = false := by
      rcases stripL_head_false (c :: t) with h0 | ⟨c', t', he, hc'⟩
      · rw [h] at h0; exact absurd h0 (by simp)
      · rw [h] at he
        injection he with h1 _
        rw [h1]; exact hc'
    have : stripR (c :: t) = c :: (t.reverse.dropWhile isPySpace).reverse := by
      unfold stripR
      rw [List.reverse_cons, dropWhile_append_last isPySpace c hc, List.reverse_append]
      rfl
    rw [this]
    simp [stripL, List.dropWhile_cons, hc]

theorem stripList_idem (l : List Char) : stripList (stripList l) = stripList l := by
  unfold stripList
  rw [stripL_stripR (stripL l) (stripL_idem l), stripR_idem]

theorem dropWhile_of_all_false (p : Char → Bool) (l : List Char)
    (h : ∀ c ∈ l, p c = false) : l.dropWhile p = l := by
  cases l with
  | nil => rfl
  | cons c t => simp [List.dropWhile_cons, h c (by simp)]

theorem stripList_of_clean (l : List Char) (h : ∀ c ∈ l, isPySpace c = false) :
    stripList l = l := by
  unfold stripList stripL stripR
  rw [dropWhile_of_all_false isPySpace l h,
    dropWhile_of_all_false isPySpace l.reverse (fun c hc => h c (List.mem_reverse.mp hc)),
    List.reverse_reverse]

theorem data_mk (l : List Char) : (String.mk l).data = l := rfl

theorem pyStrip_idem (s : String) : pyStrip (pyStrip s) = pyStrip s := by
  unfold pyStrip
  rw [data_mk, stripList_idem]

/-! ### Helper lemmas: decimal digits and the int round trip -/

theorem digitChar10_isDigit (d : Nat) (h : d < 10) : (digitChar10 d).isDigit = true := by
  interval_cases d <;> decide

theorem digitVal_digitChar10 (d : Nat) (h : d < 10) : digitVal (digitChar10 d) = d := by
  interval_cases d <;> decide

theorem natOfDigits_append_last (xs : List Char) (c : Char) :
    natOfDigits (xs ++ [c]) = 10 * natOfDigits xs + digitVal c := by
  unfold natOfDigits
  rw [List.foldl_append]
  rfl

theorem natDigitsF_spec (fuel : Nat) : ∀ n, n < fuel →
    (∀ c ∈ natDigitsF fuel n, c.isDigit = true) ∧
    natOfDigits (natDigitsF fuel n) = n ∧ natDigitsF fuel n ≠ [] := by
  induction fuel with
  | zero => intro n h; omega
  | succ fuel ih =>
    intro n h
    by_cases h10 : n < 10
    · refine ⟨?_, ?_, ?_⟩
      · intro c hc
        simp only [natDigitsF, if_pos h10] at hc
        simp at hc
        rw [hc]; exact digitChar10_isDigit n h10
      · simp only [natDigitsF, if_pos h10]
        show natOfDigits [digitChar10 n] = n
        unfold natOfDigits
        simp [digitVal_digitChar10 n h10]
      · simp [natDigitsF, if_pos h10]
    · have hdiv : n / 10 < n := Nat.div_lt_self (by omega) (by omega)
      have hfuel : n / 10 < fuel := by omega
      obtain ⟨ihd, ihv, _⟩ := ih (n / 10) hfuel
      refine ⟨?_, ?_, ?_⟩
      · intro c hc
        simp only [natDigitsF, if_neg h10] at hc
        rcases List.mem_append.mp hc with hc | hc
        · exact ihd c hc
        · simp at hc
          rw [hc]; exact digitChar10_isDigit (n % 10) (Nat.mod_lt n (by omega))
      · simp only [natDigitsF, if_neg h10]
        rw [natOfDigits_append_last, ihv, digitVal_digitChar10 (n % 10) (Nat.mod_lt n (by omega))]
        omega
      · simp [natDigitsF, if_neg h10]

theorem natDigits_isDigit (n : Nat) : ∀ c ∈ natDigits n, c.isDigit = true :=
  (natDigitsF_spec (n + 1) n (by omega)).1

theorem natOfDigits_natDigits (n : Nat) : natOfDigits (natDigits n) = n :=
  (natDigitsF_spec (n + 1) n (by omega)).2.1

theorem natDigits_ne_nil (n : Nat) : natDigits n ≠ [] :=
  (natDigitsF_spec (n + 1) n (by omega)).2.2

theorem isDigit_ne (c c' : Char) (h : c.isDigit = true) (h' : c'.isDigit = false) :
    c ≠ c' := by
  intro e
  rw [e, h'] at h
  exact Bool.noConfusion h

theorem isPySpace_of_isDigit (c : Char) (h : c.isDigit = true) : isPySpace c = false := by
  unfold isPySpace
  rw [decide_eq_false (isDigit_ne c ' ' h (by decide)),
    decide_eq_false (isDigit_ne c '\t' h (by decide)),
    decide_eq_false (isDigit_ne c '\n' h (by decide)),
    decide_eq_false (isDigit_ne c '\r' h (by decide)),
    decide_eq_false (isDigit_ne c '\x0b' h (by decide)),
    decide_eq_false (isDigit_ne c '\x0c' h (by decide))]
  rfl

theorem pyIntStr_clean (v : Int) : ∀ c ∈ (pyIntStr v).data, isPySpace c = false := by
  intro c hc
  unfold pyIntStr at hc
  by_cases h : v < 0
  · rw [if_pos h, data_mk] at hc
    cases hc with
    | head => decide
    | tail _ hc => exact isPySpace_of_isDigit c (natDigits_isDigit _ c hc)
  · rw [if_neg h, data_mk] at hc
    exact isPySpace_of_isDigit c (natDigits_isDigit _ c hc)

theorem pyStrip_pyIntStr (v : Int) : pyStrip (pyIntStr v) = pyIntStr v := by
  unfold pyStrip
  rw [stripList_of_clean (pyIntStr v).data (pyIntStr_clean v)]

theorem digCont_digits : ∀ l : List Char, (∀ c ∈ l, c.isDigit = true) → digCont l = (l, [])
  | [] => fun _ => rfl
  | c :: t => fun h => by
    have hc : c.isDigit = true := h c (List.mem_cons_self c t)
    have ih := digCont_digits t (fun c' hc' => h c' (List.mem_cons_of_mem c hc'))
    rw [digCont.eq_def]
    simp [hc, ih]

theorem digRun_digits (l : List Char) (h : ∀ c ∈ l, c.isDigit = true) : digRun l = (l, []) := by
  cases l with
  | nil => rfl
  | cons c t =>
    have hc : c.isDigit = true := h c (List.mem_cons_self c t)
    have ht := digCont_digits t (fun c' hc' => h c' (List.mem_cons_of_mem c hc'))
    rw [digRun.eq_def]
    simp [hc, ht]

theorem parseSign_digit (c : Char) (t : List Char) (hc : c.isDigit = true) :
    parseSign (c :: t) = (false, c :: t) := by
  simp [parseSign, isDigit_ne c '+' hc (by decide), isDigit_ne c '-' hc (by decide)]

theorem parsePyFloat_digitList (ds : List Char) (hne : ds ≠ [])
    (hd : ∀ c ∈ ds, c.isDigit = true) : parsePyFloat ds = some ⟨false, ds, [], 0⟩ := by
  obtain ⟨c, t, rfl⟩ : ∃ c t, ds = c :: t := by
    cases ds with
    | nil => exact absurd rfl hne
    | cons c t => exact ⟨c, t, rfl⟩
  simp only [parsePyFloat, parseSign_digit c t (hd c (List.mem_cons_self c t)),
    digRun_digits (c :: t) hd]
  simp

theorem parsePyFloat_neg_digitList (ds : List Char) (hne : ds ≠ [])
    (hd : ∀ c ∈ ds, c.isDigit = true) : parsePyFloat ('-' :: ds) = some ⟨true, ds, [], 0⟩ := by
  have hs : parseSign ('-' :: ds) = (true, ds) := rfl
  simp only [parsePyFloat, hs, digRun_digits ds hd]
  simp [hne]

theorem truncVal_zero (neg : Bool) (m : Nat) :
    truncVal neg m 0 = if neg then -(m : Int) else (m : Int) := by
  simp [truncVal]

theorem tryIntFloat_pyIntStr (v : Int) : tryIntFloat (pyIntStr v) = some v := by
  unfold tryIntFloat pyIntStr
  by_cases h : v < 0
  · rw [if_pos h, data_mk,
      parsePyFloat_neg_digitList _ (natDigits_ne_nil (-v).toNat) (natDigits_isDigit (-v).toNat)]
    simp only [Option.map_some']
    rw [List.append_nil]
    norm_num [truncVal_zero, natOfDigits_natDigits]
    omega
  · rw [if_neg h, data_mk,
      parsePyFloat_digitList _ (natDigits_ne_nil v.toNat) (natDigits_isDigit v.toNat)]
    simp only [Option.map_some']
    rw [List.append_nil]
    norm_num [truncVal_zero, natOfDigits_natDigits]
    omega

theorem normalize_vStr (s : String) :
    normalize_code (PyVal.vStr s) =
      match tryIntFloat (pyStrip s) with
      | some v => some (pyIntStr v)
      | none => some (pyStrip s) := rfl

/-- C7: `normalize` is idempotent on its own output — whenever
`normalize_code` maps the string `s` to the code `t`, it maps `t` to `t`
again. -/
theorem normalize_idempotent (s t : String)
    (h : normalize_code (PyVal.vStr s) = some t) :
    normalize_code (PyVal.vStr t) = some t := by
  rw [normalize_vStr] at h
  rw [normalize_vStr]
  cases hT : tryIntFloat (pyStrip s) with
  | some v =>
    rw [hT] at h
    injection h with h'
    subst h'
    rw [pyStrip_pyIntStr, tryIntFloat_pyIntStr]
  | none =>
    rw [hT] at h
    injection h with h'
    subst h'
    rw [pyStrip_idem, hT]

theorem normalize_idempotent_witness :
    normalize_code (PyVal.vStr "046135") = some "46135" ∧
    normalize_code (PyVal.vStr "46135") = some "46135" :=
  ⟨by decide, normalize_idempotent "046135" "46135" (by decide)⟩

/-- C8: `normalize_code` is pure, deterministic and total (it is a Lean
function): every non-missing input yields a result (no raise), and
inputs whose stripped string form cannot be interpreted as a number fall
through to the string branch and come back as the trimmed string. -/
theorem normalize_total_fallback (x : PyVal) (h : pdIsna x = false) :
    (normalize_code x).isSome = true ∧
    (tryIntFloat (pyStrip (pyStr x)) = none →
      normalize_code x = some (pyStrip (pyStr x))) := by
  unfold normalize_code
  rw [h]
  simp only [Bool.false_eq_true, if_false]
  constructor
  · cases tryIntFloat (pyStrip (pyStr x)) <;> simp
  · intro hN
    rw [hN]

theorem normalize_total_fallback_witness :
    pdIsna (PyVal.vStr "ABC-12") = false ∧
    ((normalize_code (PyVal.vStr "ABC-12")).isSome = true ∧
      (tryIntFloat (pyStrip (pyStr (PyVal.vStr "ABC-12"))) = none →
        normalize_code (PyVal.vStr "ABC-12") = some (pyStrip (pyStr (PyVal.vStr "ABC-12"))))) :=
  ⟨by decide, normalize_total_fallback (PyVal.vStr "ABC-12") (by decide)⟩

/-- C1 (counterexample): the claim says grouping commas are removed
before numeric interpretation, i.e. `normalize("12,945") = "12945"`;
the code never removes commas, so `float("12,945")` raises and the
string comes back verbatim. -/
theorem normalize_comma_counterexample :
    normalize_code (PyVal.vStr "12,945") ≠ some "12945" := by decide

/-- C1 (amended): the canonical forms actually produced —
`normalize(996539.0) = "996539"`, `normalize("046135") = "46135"`,
`normalize("ABC-12") = "ABC-12"`, `normalize(null) = null`, and
`normalize("12,945") = "12,945"` (commas are not removed: a
comma-containing numeral fails numeric interpretation and is returned
as the trimmed string). -/
theorem normalize_canonical_forms :
    normalize_code (PyVal.vFloat 996539) = some "996539" ∧
    normalize_code (PyVal.vStr "046135") = some "46135" ∧
    normalize_code (PyVal.vStr "12,945") = some "12,945" ∧
    normalize_code (PyVal.vStr "ABC-12") = some "ABC-12" ∧
    normalize_code PyVal.vNone = none := by decide

/-! ### Helper lemmas: the mapping store -/

theorem normalize_ne_none (x : PyVal) (h : pdIsna x = false) : normalize_code x ≠ none := by
  unfold normalize_code
  rw [h]
  simp only [Bool.false_eq_true, if_false]
  cases tryIntFloat (pyStrip (pyStr x)) <;> simp

theorem normalize_of_isna (x : PyVal) (h : pdIsna x = true) : normalize_code x = none := by
  unfold normalize_code
  rw [h]
  simp

theorem dedupLast_subset : ∀ (l : List MapEntry) (e : MapEntry), e ∈ dedupLast l → e ∈ l := by
  intro l
  induction l with
  | nil => intro e h; simp [dedupLast] at h
  | cons x rest ih =>
    intro e h
    by_cases hx : rest.any (fun y => decide (y.code = x.code)) = true
    · simp only [dedupLast, if_pos hx] at h
      exact List.mem_cons_of_mem x (ih e h)
    · simp only [dedupLast, if_neg hx] at h
      rcases List.mem_cons.mp h with rfl | h'
      · exact List.mem_cons_self _ _
      · exact List.mem_cons_of_mem x (ih e h')

theorem dedupLast_nodup_keys (l : List MapEntry) : ((dedupLast l).map MapEntry.code).Nodup := by
  induction l with
  | nil => simp [dedupLast]
  | cons x rest ih =>
    by_cases hx : rest.any (fun y => decide (y.code = x.code)) = true
    · simpa [dedupLast, hx] using ih
    · have hnot : ∀ y ∈ rest, ¬(y.code = x.code) := by
        intro y hy heq
        exact hx (List.any_eq_true.mpr ⟨y, hy, by simp [heq]⟩)
      simp only [dedupLast, if_neg hx, List.map_cons, List.nodup_cons]
      refine ⟨?_, ih⟩
      intro hmem
      obtain ⟨y, hy, hyc⟩ := List.mem_map.mp hmem
      exact hnot y (dedupLast_subset rest y hy) hyc

/-- C5: ingest is atomic on schema failure — when the (stripped) column
names of the upload lack `Buy Line` or `Vendor Name`, the call reports
`SchemaError` and returns the store exactly as it was, so any subsequent
lookup sees the pre-call state. -/
theorem ingest_schema_error_atomic (store : List MapEntry) (df : DF)
    (h : ¬ ("Buy Line" ∈ df.cols.map pyStrip ∧ "Vendor Name" ∈ df.cols.map pyStrip)) :
    update_master_mapping store df = (store, IngestOutcome.schemaError) := by
  simp only [update_master_mapping]
  rw [if_neg h]

theorem ingest_schema_error_atomic_witness :
    ¬ ("Buy Line" ∈ (DF.mk ["Buy Line"] [[PyVal.vStr "2"]]).cols.map pyStrip ∧
        "Vendor Name" ∈ (DF.mk ["Buy Line"] [[PyVal.vStr "2"]]).cols.map pyStrip) ∧
    update_master_mapping [MapEntry.mk (some "1") (PyVal.vStr "1") (PyVal.vStr "A")]
        (DF.mk ["Buy Line"] [[PyVal.vStr "2"]]) =
      ([MapEntry.mk (some "1") (PyVal.vStr "1") (PyVal.vStr "A")], IngestOutcome.schemaError) :=
  ⟨by decide, ingest_schema_error_atomic _ _ (by decide)⟩

/-- C9: every ingest preserves the store invariant — at most one entry
per normalized code (`drop_duplicates` keeps the last), and no entry
with a missing code (rows whose raw code is missing are dropped before
normalization, and normalizing a non-missing value never yields null). -/
theorem ingest_preserves_invariant (store : List MapEntry) (df : DF) (h : StoreInv store) :
    StoreInv (update_master_mapping store df).1 := by
  by_cases hc : "Buy Line" ∈ df.cols.map pyStrip ∧ "Vendor Name" ∈ df.cols.map pyStrip
  · simp only [update_master_mapping]
    rw [if_pos hc]
    dsimp only
    constructor
    · exact dedupLast_nodup_keys _
    · intro e he
      rcases List.mem_append.mp (dedupLast_subset _ e he) with hs | hE
      · exact h.2 e hs
      · obtain ⟨r, hr, rfl⟩ := List.mem_map.mp hE
        have hna : pdIsna (getCellAt r
            (findIdxO (fun c => decide (c = "Buy Line")) (df.cols.map pyStrip))) = false := by
          have h2 := (List.mem_filter.mp hr).2
          simpa using h2
        exact normalize_ne_none _ hna
  · simp only [update_master_mapping]
    rw [if_neg hc]
    exact h

theorem ingest_preserves_invariant_witness :
    StoreInv [] ∧
    StoreInv (update_master_mapping []
      (mkMapDF [(PyVal.vNone, PyVal.vStr "X"), (PyVal.vStr "046135", PyVal.vStr "A"),
        (PyVal.vStr "46135", PyVal.vStr "B")])).1 :=
  ⟨⟨by decide, by decide⟩, ingest_preserves_invariant [] _ ⟨by decide, by decide⟩⟩

/-- Lookup by code keeping the LAST matching entry (the effect of
`drop_duplicates(keep="last")` on later lookups). -/
def lookupLastCode (l : List MapEntry) (c : String) : Option PyVal :=
  (l.reverse.find? (fun e => decide (e.code = some c))).map MapEntry.vendor

theorem lookupCode_cons (x : MapEntry) (rest : List MapEntry) (c : String) :
    lookupCode (x :: rest) c =
      if x.code = some c then some x.vendor else lookupCode rest c := by
  unfold lookupCode
  rw [List.find?_cons]
  by_cases px : x.code = some c
  · simp [px]
  · simp [px]

theorem lookupLast_cons (x : MapEntry) (rest : List MapEntry) (c : String) :
    lookupLastCode (x :: rest) c =
      (lookupLastCode rest c).or (if x.code = some c then some x.vendor else none) := by
  unfold lookupLastCode
  rw [List.reverse_cons, List.find?_append, Option.map_or']
  congr 1
  by_cases px : x.code = some c
  · simp [List.find?_cons, px]
  · simp [List.find?_cons, px]

theorem lookupLast_append (l1 l2 : List MapEntry) (c : String) :
    lookupLastCode (l1 ++ l2) c = (lookupLastCode l2 c).or (lookupLastCode l1 c) := by
  unfold lookupLastCode
  rw [List.reverse_append, List.find?_append, Option.map_or']

theorem lookupLast_eq_none (rest : List MapEntry) (c : String)
    (h : ∀ y ∈ rest, y.code ≠ some c) : lookupLastCode rest c = none := by
  unfold lookupLastCode
  have hn : rest.reverse.find? (fun e => decide (e.code = some c)) = none :=
    List.find?_eq_none.mpr (fun y hy hpy => h y (List.mem_reverse.mp hy) (by simpa using hpy))
  rw [hn]
  rfl

theorem lookupLast_ne_none (rest : List MapEntry) (c : String) (y : MapEntry)
    (hy : y ∈ rest) (hyc : y.code = some c) : lookupLastCode rest c ≠ none := by
  unfold lookupLastCode
  cases hf : rest.reverse.find? (fun e => decide (e.code = some c)) with
  | some w => simp
  | none => exact absurd (by simp [hyc]) (List.find?_eq_none.mp hf y (List.mem_reverse.mpr hy))

theorem lookupCode_dedupLast (l : List MapEntry) (c : String) :
    lookupCode (dedupLast l) c = lookupLastCode l c := by
  induction l with
  | nil => rfl
  | cons x rest ih =>
    by_cases hx : rest.any (fun y => decide (y.code = x.code)) = true
    · rw [show dedupLast (x :: rest) = dedupLast rest from by simp [dedupLast, hx], ih,
        lookupLast_cons]
      by_cases px : x.code = some c
      · obtain ⟨y, hy, hyx⟩ := List.any_eq_true.mp hx
        have hyc : y.code = some c := by
          simp only [decide_eq_true_eq] at hyx
          rw [hyx, px]
        obtain ⟨w, hw⟩ := Option.ne_none_iff_exists'.mp (lookupLast_ne_none rest c y hy hyc)
        rw [hw, if_pos px, Option.or_some]
      · rw [if_neg px, Option.or_none]
    · rw [show dedupLast (x :: rest) = x :: dedupLast rest from by simp [dedupLast, hx],
        lookupCode_cons, lookupLast_cons, ih]
      by_cases px : x.code = some c
      · have hnone : lookupLastCode rest c = none := by
          apply lookupLast_eq_none
          intro y hy hyc
          apply hx
          refine List.any_eq_true.mpr ⟨y, hy, ?_⟩
          simp only [decide_eq_true_eq]
          rw [hyc, px]
        rw [if_pos px, hnone, if_pos px, Option.none_or]
      · rw [if_neg px, if_neg px, Option.or_none]

theorem lookupCode_eq_last_of_nodup (l : List MapEntry) (c : String)
    (h : (l.map MapEntry.code).Nodup) : lookupCode l c = lookupLastCode l c := by
  induction l with
  | nil => rfl
  | cons x rest ih =>
    simp only [List.map_cons, List.nodup_cons] at h
    rw [lookupCode_cons, lookupLast_cons, ih h.2]
    by_cases px : x.code = some c
    · have hnone : lookupLastCode rest c = none := by
        apply lookupLast_eq_none
        intro y hy hyc
        exact h.1 (by rw [← px] at hyc; exact List.mem_map.mpr ⟨y, hy, hyc⟩)
      rw [if_pos px, if_pos px, hnone, Option.none_or]
    · rw [if_neg px, if_neg px, Option.or_none]

theorem lookupLast_batchEntries (L : List (PyVal × PyVal)) (c : String) :
    lookupLastCode (batchEntries L) c = batchLookup L c := by
  unfold lookupLastCode batchEntries batchLookup
  rw [← List.map_reverse, List.find?_map, ← List.filter_reverse, List.find?_filter,
    Option.map_map]
  have hpred : (fun a : PyVal × PyVal =>
      ((!pdIsna a.1) ∧ ((fun e => decide (e.code = some c)) ∘
        (fun p => MapEntry.mk (normalize_code p.1) p.1 p.2)) a : Bool)) =
      (fun a : PyVal × PyVal => decide (normalize_code a.1 = some c)) := by
    funext a
    cases hna : pdIsna a.1 with
    | true => simp [hna, normalize_of_isna a.1 hna]
    | false => simp [hna]
  rw [hpred]
  rfl

theorem update_mkMapDF (store : List MapEntry) (L : List (PyVal × PyVal)) :
    update_master_mapping store (mkMapDF L) =
      (dedupLast (store ++ batchEntries L), IngestOutcome.ok) := by
  have hcols : (["Buy Line", "Vendor Name"].map pyStrip) = ["Buy Line", "Vendor Name"] := by
    decide
  simp only [update_master_mapping, mkMapDF, hcols]
  rw [if_pos (by decide :
    ("Buy Line" : String) ∈ ["Buy Line", "Vendor Name"] ∧
      ("Vendor Name" : String) ∈ ["Buy Line", "Vendor Name"])]
  rw [List.filter_map, List.map_map]
  rfl

/-- C3: stable last-write-wins — after ingesting batch `A` and then
batch `B` into a store satisfying the key invariant, looking up a code
returns: the name of the last row of `B` for that code when `B` has one;
otherwise the name of the last row of `A` for it; otherwise whatever the
store previously held.  In particular a code in both batches maps to
`B`'s name, a code unique to `A` keeps `A`'s name, and within one batch
the later row wins. -/
theorem ingest_last_write_wins (store : List MapEntry) (A B : List (PyVal × PyVal))
    (c : String) (hkeys : (store.map MapEntry.code).Nodup) :
    lookupCode (update_master_mapping
        (update_master_mapping store (mkMapDF A)).1 (mkMapDF B)).1 c =
      (batchLookup B c).or ((batchLookup A c).or (lookupCode store c)) := by
  rw [update_mkMapDF]
  dsimp only
  rw [update_mkMapDF]
  dsimp only
  rw [lookupCode_dedupLast, lookupLast_append, lookupLast_batchEntries]
  congr 1
  rw [← lookupCode_eq_last_of_nodup _ c (dedupLast_nodup_keys _), lookupCode_dedupLast,
    lookupLast_append, lookupLast_batchEntries]
  congr 1
  exact (lookupCode_eq_last_of_nodup store c hkeys).symm

theorem ingest_last_write_wins_witness :
    (([] : List MapEntry).map MapEntry.code).Nodup ∧
    lookupCode (update_master_mapping
        (update_master_mapping []
          (mkMapDF [(PyVal.vStr "1", PyVal.vStr "FirstA"), (PyVal.vStr "01", PyVal.vStr "LastA"),
            (PyVal.vStr "2", PyVal.vStr "OnlyA")])).1
        (mkMapDF [(PyVal.vStr "1.0", PyVal.vStr "FromB")])).1 "1" =
      (batchLookup [(PyVal.vStr "1.0", PyVal.vStr "FromB")] "1").or
        ((batchLookup [(PyVal.vStr "1", PyVal.vStr "FirstA"), (PyVal.vStr "01", PyVal.vStr "LastA"),
            (PyVal.vStr "2", PyVal.vStr "OnlyA")] "1").or (lookupCode [] "1")) :=
  ⟨by decide, ingest_last_write_wins [] _ _ "1" (by decide)⟩

/-! ### Helper lemmas: column index lookup -/

theorem findIdxO_lt_length (p : α → Bool) :
    ∀ (l : List α) (j : Nat), findIdxO p l = some j → j < l.length := by
  intro l
  induction l with
  | nil => intro j h; simp [findIdxO] at h
  | cons a t ih =>
    intro j h
    by_cases ha : p a = true
    · simp only [findIdxO, if_pos ha] at h
      injection h with h0
      simp [← h0]
    · simp only [findIdxO, if_neg ha] at h
      cases hf : findIdxO p t with
      | none => rw [hf] at h; simp at h
      | some j' =>
        rw [hf] at h
        simp only [Option.map_some'] at h
        injection h with h0
        have := ih j' hf
        simp only [List.length_cons]
        omega

theorem findIdxO_getD (p : α → Bool) :
    ∀ (l : List α) (j : Nat), findIdxO p l = some j → ∀ d : α, p (l.getD j d) = true := by
  intro l
  induction l with
  | nil => intro j h; simp [findIdxO] at h
  | cons a t ih =>
    intro j h d
    by_cases ha : p a = true
    · simp only [findIdxO, if_pos ha] at h
      injection h with h0
      rw [← h0]
      simpa using ha
    · simp only [findIdxO, if_neg ha] at h
      cases hf : findIdxO p t with
      | none => rw [hf] at h; simp at h
      | some j' =>
        rw [hf] at h
        simp only [Option.map_some'] at h
        injection h with h0
        rw [← h0]
        simpa using ih j' hf d

theorem findIdxO_eq_none (p : α → Bool) :
    ∀ l : List α, findIdxO p l = none ↔ ∀ a ∈ l, p a = false := by
  intro l
  induction l with
  | nil => simp [findIdxO]
  | cons a t ih =>
    by_cases ha : p a = true
    · simp [findIdxO, ha]
    · simp only [findIdxO, if_neg ha, Option.map_eq_none', ih, List.mem_cons]
      constructor
      · intro h b hb
        rcases hb with rfl | hb
        · simpa using ha
        · exact h b hb
      · intro h b hb
        exact h b (Or.inr hb)

theorem findIdxO_isSome_of_mem (l : List α) (a : α) (p : α → Bool) (hm : a ∈ l)
    (hp : p a = true) : ∃ j, findIdxO p l = some j := by
  cases hf : findIdxO p l with
  | some j => exact ⟨j, rfl⟩
  | none =>
    rw [(findIdxO_eq_none p l).mp hf a hm] at hp
    exact Bool.noConfusion hp

theorem findIdxO_append_left (p : α → Bool) :
    ∀ (l l2 : List α) (j : Nat), findIdxO p l = some j → findIdxO p (l ++ l2) = some j := by
  intro l
  induction l with
  | nil => intro l2 j h; simp [findIdxO] at h
  | cons a t ih =>
    intro l2 j h
    by_cases ha : p a = true
    · simp only [findIdxO, if_pos ha] at h ⊢
      exact h
    · simp only [findIdxO, if_neg ha] at h ⊢
      cases hf : findIdxO p t with
      | none => rw [hf] at h; simp at h
      | some j' =>
        rw [hf] at h
        rw [List.append_eq, ih l2 j' hf]
        exact h

theorem findIdxO_fresh (l : List String) (a : String) (h : a ∉ l) :
    findIdxO (fun c => decide (c = a)) (l ++ [a]) = some l.length := by
  induction l with
  | nil => simp [findIdxO]
  | cons b t ih =>
    have hb : b ≠ a := fun e => h (e ▸ List.mem_cons_self b t)
    have ht : a ∉ t := fun e => h (List.mem_cons_of_mem b e)
    simp only [List.cons_append, findIdxO, decide_eq_true_eq, if_neg hb, List.append_eq,
      ih ht, Option.map_some', List.length_cons]

theorem findIdxO_mem (l : List String) (a : String) :
    ∀ j, findIdxO (fun c => decide (c = a)) l = some j → a ∈ l := by
  induction l with
  | nil => intro j h; simp [findIdxO] at h
  | cons b t ih =>
    intro j h
    by_cases hb : b = a
    · rw [hb]; exact List.mem_cons_self a t
    · simp only [findIdxO, decide_eq_true_eq, if_neg hb] at h
      cases hf : findIdxO (fun c => decide (c = a)) t with
      | none => rw [hf] at h; simp at h
      | some j' => exact List.mem_cons_of_mem b (ih j' hf)

theorem nodup_not_mem_eraseIdx (l : List String) (a : String) :
    ∀ j, l.Nodup → findIdxO (fun c => decide (c = a)) l = some j → a ∉ l.eraseIdx j := by
  induction l with
  | nil => intro j _ h; simp [findIdxO] at h
  | cons b t ih =>
    intro j hnd hj
    simp only [List.nodup_cons] at hnd
    by_cases hb : b = a
    · simp only [findIdxO, decide_eq_true_eq, if_pos hb] at hj
      injection hj with h0
      rw [← h0, List.eraseIdx_cons_zero]
      rw [hb] at hnd
      exact hnd.1
    · simp only [findIdxO, decide_eq_true_eq, if_neg hb] at hj
      cases hf : findIdxO (fun c => decide (c = a)) t with
      | none => rw [hf] at hj; simp at hj
      | some j' =>
        rw [hf] at hj
        simp only [Option.map_some'] at hj
        injection hj with h0
        rw [← h0, List.eraseIdx_cons_succ]
        intro hmem
        rcases List.mem_cons.mp hmem with rfl | hmem'
        · exact hb rfl
        · exact ih j' hnd.2 hf hmem'

/-! ### Helper lemmas: the rewrite operation -/

theorem addCodeNorm_cols_inplace (df : DF) (j : Nat)
    (hj : findIdxO (fun c => decide (c = "code_norm")) df.cols = some j) :
    (addCodeNormCol df).cols = df.cols := by
  unfold addCodeNormCol
  rw [hj]

theorem addCodeNorm_cols_append (df : DF)
    (hj : findIdxO (fun c => decide (c = "code_norm")) df.cols = none) :
    (addCodeNormCol df).cols = df.cols ++ ["code_norm"] := by
  unfold addCodeNormCol
  rw [hj]

theorem addCodeNorm_length (df : DF) :
    (addCodeNormCol df).cells.length = df.cells.length := by
  unfold addCodeNormCol
  cases findIdxO (fun c => decide (c = "code_norm")) df.cols <;> simp

theorem apply_empty_store_eq (df2 : DF) (hm : "manufacturer_Name" ∈ df2.cols) :
    apply_mapping_to_file2 [] df2 = ApplyResult.emptyStore (addCodeNormCol df2) := by
  simp only [apply_mapping_to_file2]
  rw [if_pos hm]
  rfl

theorem restrictCols_addCodeNorm (df : DF) (hwf : RectWF df) (cs : List String)
    (hcs : ∀ c ∈ cs, c ∈ df.cols ∧ c ≠ "code_norm") :
    restrictCols (addCodeNormCol df) cs = restrictCols df cs := by
  cases hj : findIdxO (fun c => decide (c = "code_norm")) df.cols with
  | some j =>
    unfold restrictCols
    rw [addCodeNorm_cols_inplace df j hj]
    unfold addCodeNormCol
    rw [hj]
    dsimp only
    rw [List.map_map]
    apply List.map_congr_left
    intro r _
    dsimp only [Function.comp]
    apply List.map_congr_left
    intro c hc
    obtain ⟨_, hcne⟩ := hcs c hc
    cases hi : findIdxO (fun c2 => decide (c2 = c)) df.cols with
    | none => rfl
    | some i =>
      have hij : j ≠ i := by
        intro e
        have h1 := findIdxO_getD _ _ _ hi ""
        have h2 := findIdxO_getD _ _ _ hj ""
        rw [e] at h2
        simp only [decide_eq_true_eq] at h1 h2
        exact hcne (by rw [← h1, h2])
      unfold getCellAt
      simp only [List.getD_eq_getElem?_getD]
      rw [List.getElem?_set_ne hij]
  | none =>
    unfold restrictCols
    rw [addCodeNorm_cols_append df hj]
    unfold addCodeNormCol
    rw [hj]
    dsimp only
    rw [List.map_map]
    apply List.map_congr_left
    intro r hr
    dsimp only [Function.comp]
    apply List.map_congr_left
    intro c hc
    obtain ⟨hcin, _⟩ := hcs c hc
    obtain ⟨i, hi⟩ := findIdxO_isSome_of_mem df.cols c (fun c2 => decide (c2 = c)) hcin
      (by simp)
    rw [findIdxO_append_left _ _ _ _ hi, hi]
    unfold getCellAt
    have hlen : i < r.length := by
      rw [hwf r hr]
      exact findIdxO_lt_length _ _ _ hi
    simp only [List.getD_eq_getElem?_getD]
    rw [List.getElem?_append_left hlen]

/-- C2 (counterexample): with an empty store the call does report the
empty-store condition, but the returned frame is NOT the input
unchanged — it carries the extra `code_norm` helper column. -/
theorem apply_empty_store_counterexample :
    apply_mapping_to_file2 [] (DF.mk ["manufacturer_Name"] [[PyVal.vStr "X"]]) ≠
        ApplyResult.emptyStore (DF.mk ["manufacturer_Name"] [[PyVal.vStr "X"]]) ∧
    apply_mapping_to_file2 [] (DF.mk ["manufacturer_Name"] [[PyVal.vStr "X"]]) =
      ApplyResult.emptyStore
        (DF.mk ["manufacturer_Name", "code_norm"] [[PyVal.vStr "X", PyVal.vStr "X"]]) := by
  constructor
  · decide
  · decide

/-- C2 (amended): calling the rewrite with an empty store on an input
that has the lookup column reports the empty-store condition and returns
the input rows with every original column's values unchanged and the row
count preserved — but with the `code_norm` helper column added (or
overwritten), rather than the input byte-identical. -/
theorem apply_empty_store_behavior (df2 : DF) (hm : "manufacturer_Name" ∈ df2.cols)
    (hwf : RectWF df2) :
    apply_mapping_to_file2 [] df2 = ApplyResult.emptyStore (addCodeNormCol df2) ∧
    (addCodeNormCol df2).cells.length = df2.cells.length ∧
    restrictCols (addCodeNormCol df2) (df2.cols.filter (fun c => decide (c ≠ "code_norm"))) =
      restrictCols df2 (df2.cols.filter (fun c => decide (c ≠ "code_norm"))) := by
  refine ⟨apply_empty_store_eq df2 hm, addCodeNorm_length df2, ?_⟩
  apply restrictCols_addCodeNorm df2 hwf
  intro c hc
  have h1 := List.mem_filter.mp hc
  exact ⟨h1.1, by simpa using h1.2⟩

theorem apply_empty_store_behavior_witness :
    apply_mapping_to_file2 [] (DF.mk ["manufacturer_Name", "other"]
        [[PyVal.vStr "A", PyVal.vStr "keep"]]) =
      ApplyResult.emptyStore (addCodeNormCol (DF.mk ["manufacturer_Name", "other"]
        [[PyVal.vStr "A", PyVal.vStr "keep"]])) ∧
    (addCodeNormCol (DF.mk ["manufacturer_Name", "other"]
        [[PyVal.vStr "A", PyVal.vStr "keep"]])).cells.length = 1 ∧
    restrictCols (addCodeNormCol (DF.mk ["manufacturer_Name", "other"]
        [[PyVal.vStr "A", PyVal.vStr "keep"]]))
        ((["manufacturer_Name", "other"] : List String).filter (fun c => decide (c ≠ "code_norm"))) =
      restrictCols (DF.mk ["manufacturer_Name", "other"] [[PyVal.vStr "A", PyVal.vStr "keep"]])
        ((["manufacturer_Name", "other"] : List String).filter (fun c => decide (c ≠ "code_norm"))) :=
  apply_empty_store_behavior (DF.mk ["manufacturer_Name", "other"]
    [[PyVal.vStr "A", PyVal.vStr "keep"]]) (by decide) (by unfold RectWF; decide)

/-- C6: end-to-end — from an empty store, ingesting the mapping rows
`[("996539.0","Acme"), ("046135","Globex")]` and applying the result to
data rows `["996539", "46135", "999999"]` yields
`["Acme", "Globex", "999999"]` in order. -/
theorem end_to_end_mapping :
    apply_mapping_to_file2
        (update_master_mapping []
          (mkMapDF [(PyVal.vStr "996539.0", PyVal.vStr "Acme"),
            (PyVal.vStr "046135", PyVal.vStr "Globex")])).1
        (DF.mk ["manufacturer_Name"]
          [[PyVal.vStr "996539"], [PyVal.vStr "46135"], [PyVal.vStr "999999"]]) =
      ApplyResult.ok (DF.mk ["manufacturer_Name"]
        [[PyVal.vStr "Acme"], [PyVal.vStr "Globex"], [PyVal.vStr "999999"]]) := by
  decide

/-- C10: the rewrite's `code_norm` helper column — when the input
already has a `code_norm` column and the store is non-empty, the
successful result drops that column altogether (so its original values
are not preserved); on the empty-store path the returned frame still
carries the (re)computed `code_norm` column. -/
theorem apply_code_norm_helper_column :
    (∀ (master : List MapEntry) (df2 : DF) (j : Nat), master ≠ [] →
      "manufacturer_Name" ∈ df2.cols → df2.cols.Nodup →
      findIdxO (fun c => decide (c = "code_norm")) df2.cols = some j →
      "Vendor Name" ∉ df2.cols →
      resultCols (apply_mapping_to_file2 master df2) = some (df2.cols.eraseIdx j) ∧
        "code_norm" ∉ df2.cols.eraseIdx j) ∧
    (∀ df2 : DF, "manufacturer_Name" ∈ df2.cols →
      apply_mapping_to_file2 [] df2 = ApplyResult.emptyStore (addCodeNormCol df2) ∧
        "code_norm" ∈ (addCodeNormCol df2).cols) := by
  constructor
  · intro master df2 j hne hm hnd hj hvn
    have hne' : master.isEmpty = false := by
      cases master with
      | nil => exact absurd rfl hne
      | cons a t => rfl
    constructor
    · simp only [apply_mapping_to_file2]
      rw [if_pos hm, hne']
      simp only [Bool.false_eq_true, if_false]
      rw [if_neg hvn]
      simp only [resultCols]
      rw [addCodeNorm_cols_inplace df2 j hj, hj]
      rfl
    · exact nodup_not_mem_eraseIdx df2.cols "code_norm" j hnd hj
  · intro df2 hm
    refine ⟨apply_empty_store_eq df2 hm, ?_⟩
    cases hj : findIdxO (fun c => decide (c = "code_norm")) df2.cols with
    | some j =>
      rw [addCodeNorm_cols_inplace df2 j hj]
      exact findIdxO_mem df2.cols "code_norm" j hj
    | none =>
      rw [addCodeNorm_cols_append df2 hj]
      exact List.mem_append_right _ (by simp)

theorem apply_code_norm_helper_column_witness :
    (resultCols (apply_mapping_to_file2 [MapEntry.mk (some "1") (PyVal.vStr "1") (PyVal.vStr "N")]
        (DF.mk ["manufacturer_Name", "code_norm"] [[PyVal.vStr "1", PyVal.vStr "orig"]])) =
        some ((["manufacturer_Name", "code_norm"] : List String).eraseIdx 1) ∧
      "code_norm" ∉ (["manufacturer_Name", "code_norm"] : List String).eraseIdx 1) ∧
    (apply_mapping_to_file2 [] (DF.mk ["manufacturer_Name"] [[PyVal.vStr "2"]]) =
        ApplyResult.emptyStore (addCodeNormCol (DF.mk ["manufacturer_Name"] [[PyVal.vStr "2"]])) ∧
      "code_norm" ∈ (addCodeNormCol (DF.mk ["manufacturer_Name"] [[PyVal.vStr "2"]])).cols) :=
  ⟨apply_code_norm_helper_column.1 [MapEntry.mk (some "1") (PyVal.vStr "1") (PyVal.vStr "N")]
      (DF.mk ["manufacturer_Name", "code_norm"] [[PyVal.vStr "1", PyVal.vStr "orig"]]) 1
      (by decide) (by decide) (by decide) (by decide) (by decide),
    apply_code_norm_helper_column.2 (DF.mk ["manufacturer_Name"] [[PyVal.vStr "2"]]) (by decide)⟩

/-- C4 (counterexample): for an input that already contains a
`code_norm` column the rewrite succeeds but silently drops that column,
so the output does not have the input's columns — contradicting "no
columns other than the lookup column changed". -/
theorem apply_frame_counterexample :
    apply_mapping_to_file2 [MapEntry.mk (some "k") (PyVal.vStr "k") (PyVal.vStr "N")]
        (DF.mk ["manufacturer_Name", "code_norm"] [[PyVal.vStr "X", PyVal.vStr "orig"]]) =
      ApplyResult.ok (DF.mk ["manufacturer_Name"] [[PyVal.vStr "X"]]) ∧
    (["manufacturer_Name"] : List String) ≠ ["manufacturer_Name", "code_norm"] := by
  constructor
  · decide
  · decide

theorem keyMatch_vNone (oc : Option String) : keyMatch PyVal.vNone oc = false := by
  cases oc <;> rfl

theorem keyMatch_vStr (c : String) (oc : Option String) :
    keyMatch (PyVal.vStr c) oc = decide (oc = some c) := by
  cases oc with
  | none => simp [keyMatch]
  | some c2 =>
    by_cases h : c2 = c
    · simp [keyMatch, h]
    · simp [keyMatch, h, Ne.symm h]

theorem eraseIdx_append_len (l : List α) (x : α) : (l ++ [x]).eraseIdx l.length = l := by
  rw [List.eraseIdx_append_of_length_le (Nat.le_refl l.length)]
  simp

theorem getD_append_len (l : List α) (x d : α) : (l ++ [x]).getD l.length d = x := by
  simp [List.getD_eq_getElem?_getD, List.getElem?_concat_length]

theorem filter_code_nodup (c : String) :
    ∀ master : List MapEntry, (master.map MapEntry.code).Nodup →
      master.filter (fun e => decide (e.code = some c)) =
        match master.find? (fun e => decide (e.code = some c)) with
        | some e => [e]
        | none => [] := by
  intro master
  induction master with
  | nil => intro _; rfl
  | cons x rest ih =>
    intro hk
    simp only [List.map_cons, List.nodup_cons] at hk
    by_cases px : x.code = some c
    · have hrest : rest.filter (fun e => decide (e.code = some c)) = [] := by
        rw [List.filter_eq_nil_iff]
        intro y hy hyc
        simp only [decide_eq_true_eq] at hyc
        exact hk.1 (List.mem_map.mpr ⟨y, hy, by rw [hyc, ← px]⟩)
      rw [List.filter_cons_of_pos (by simpa using px),
        List.find?_cons_of_pos _ (by simpa using px), hrest]
    · rw [List.filter_cons_of_neg (by simpa using px),
        List.find?_cons_of_neg _ (by simpa using px), ih hk.2]

theorem flatten_map_singleton {α β γ : Type} (l : List α) (bf : α → List β) (g : β → γ)
    (sp : α → γ) (h : ∀ r ∈ l, (bf r).map g = [sp r]) :
    ((l.map bf).flatten).map g = l.map sp := by
  induction l with
  | nil => rfl
  | cons r t ih =>
    simp only [List.map_cons, List.flatten_cons, List.map_append,
      h r (List.mem_cons_self r t), ih (fun x hx => h x (List.mem_cons_of_mem r hx)),
      List.singleton_append]

theorem addCodeNorm_append_eq (df : DF) (j : Nat)
    (hm : findIdxO (fun c => decide (c = "manufacturer_Name")) df.cols = some j)
    (hcn : findIdxO (fun c => decide (c = "code_norm")) df.cols = none) :
    addCodeNormCol df = DF.mk (df.cols ++ ["code_norm"])
      (df.cells.map (fun r => r ++ [optStrToVal (normalize_code (r.getD j PyVal.vNone))])) := by
  unfold addCodeNormCol
  rw [hcn, hm]
  rfl

/-- C4 (amended): frame property of the rewrite — for every rectangular
input that contains the lookup column and no column named `code_norm` or
`Vendor Name`, and every non-empty store whose entries have pairwise
distinct, non-null codes and non-null names, the result is `ok` with
exactly the input's columns and the input's rows in order, where only
the lookup cell may change: a row whose normalized code has a store
entry receives that entry's name, and every other row (no match, or a
missing code) is returned unchanged. -/
theorem apply_mapping_frame (master : List MapEntry) (df2 : DF) (j : Nat)
    (hm : findIdxO (fun c => decide (c = "manufacturer_Name")) df2.cols = some j)
    (hcn : "code_norm" ∉ df2.cols) (hvn : "Vendor Name" ∉ df2.cols)
    (hwf : RectWF df2) (hne : master ≠ [])
    (hkeys : (master.map MapEntry.code).Nodup)
    (hnn : ∀ e ∈ master, e.code ≠ none)
    (hven : ∀ e ∈ master, pdIsna e.vendor = false) :
    apply_mapping_to_file2 master df2 =
      ApplyResult.ok (DF.mk df2.cols (df2.cells.map (rowRewriteSpec master j))) := by
  have hmem : "manufacturer_Name" ∈ df2.cols := findIdxO_mem df2.cols _ j hm
  have hne' : master.isEmpty = false := by
    cases master with
    | nil => exact absurd rfl hne
    | cons a t => rfl
  have hjnone : findIdxO (fun c => decide (c = "code_norm")) df2.cols = none := by
    rw [findIdxO_eq_none]
    intro a ha
    exact decide_eq_false (fun e => hcn (e ▸ ha))
  have hfresh : findIdxO (fun c => decide (c = "code_norm")) (df2.cols ++ ["code_norm"]) =
      some df2.cols.length := findIdxO_fresh df2.cols "code_norm" hcn
  have hm2 : findIdxO (fun c => decide (c = "manufacturer_Name")) (df2.cols ++ ["code_norm"]) =
      some j := findIdxO_append_left _ df2.cols ["code_norm"] j hm
  simp only [apply_mapping_to_file2]
  rw [if_pos hmem, hne']
  simp only [Bool.false_eq_true, if_false]
  rw [if_neg hvn]
  rw [addCodeNorm_append_eq df2 j hm hjnone]
  simp only [hfresh, hm2, List.map_map]
  congr 1
  congr 1
  · exact eraseIdx_append_len df2.cols "code_norm"
  · apply flatten_map_singleton
    intro r hr
    dsimp only [Function.comp]
    have hrlen : r.length = df2.cols.length := hwf r hr
    have hkey : getCellAt (r ++ [optStrToVal (normalize_code (r.getD j PyVal.vNone))])
        (some df2.cols.length) = optStrToVal (normalize_code (r.getD j PyVal.vNone)) := by
      simp only [getCellAt]
      rw [← hrlen]
      exact getD_append_len r _ PyVal.vNone
    simp only [hkey]
    cases hnorm : normalize_code (r.getD j PyVal.vNone) with
    | none =>
      simp only [hnorm, optStrToVal]
      rw [show master.filter (fun e => keyMatch PyVal.vNone e.code) = [] from
        List.filter_eq_nil_iff.mpr (fun e _ => by simp [keyMatch_vNone])]
      simp only [List.isEmpty_nil, if_true, List.map_cons, List.map_nil]
      rw [show pdIsna PyVal.vNone = true from rfl]
      simp only [if_true]
      rw [show eraseAt (r ++ [PyVal.vNone]) (some df2.cols.length) = r from by
        unfold eraseAt; rw [← hrlen]; exact eraseIdx_append_len r PyVal.vNone]
      unfold rowRewriteSpec
      rw [hnorm]
    | some c =>
      simp only [hnorm, optStrToVal]
      rw [show (fun (e : MapEntry) => keyMatch (PyVal.vStr c) e.code) =
        (fun e => decide (e.code = some c)) from funext (fun e => keyMatch_vStr c e.code)]
      rw [filter_code_nodup c master hkeys]
      cases hfind : master.find? (fun e => decide (e.code = some c)) with
      | none =>
        dsimp only
        simp only [List.isEmpty_nil, if_true, List.map_cons, List.map_nil]
        rw [show pdIsna PyVal.vNone = true from rfl]
        simp only [if_true]
        rw [show eraseAt (r ++ [PyVal.vStr c]) (some df2.cols.length) = r from by
          unfold eraseAt; rw [← hrlen]; exact eraseIdx_append_len r (PyVal.vStr c)]
        unfold rowRewriteSpec
        rw [hnorm]
        unfold lookupCode
        dsimp only
        rw [hfind]
        rfl
      | some e =>
        dsimp only
        simp only [List.isEmpty_cons, Bool.false_eq_true, if_false, List.map_cons, List.map_nil]
        rw [hven e (List.mem_of_find?_eq_some hfind)]
        simp only [Bool.false_eq_true, if_false]
        have hjr : j < r.length := by
          rw [hrlen]
          exact findIdxO_lt_length _ _ _ hm
        rw [show setCellAt (r ++ [PyVal.vStr c]) (some j) e.vendor =
            r.set j e.vendor ++ [PyVal.vStr c] from by
          unfold setCellAt; exact List.set_append_left j e.vendor hjr]
        rw [show eraseAt (r.set j e.vendor ++ [PyVal.vStr c]) (some df2.cols.length) =
            r.set j e.vendor from by
          unfold eraseAt
          rw [show df2.cols.length = (r.set j e.vendor).length from by
            rw [List.length_set, hrlen]]
          exact eraseIdx_append_len _ _]
        unfold rowRewriteSpec
        rw [hnorm]
        unfold lookupCode
        dsimp only
        rw [hfind]
        rfl

theorem apply_mapping_frame_witness :
    apply_mapping_to_file2
        [MapEntry.mk (some "46135") (PyVal.vStr "046135") (PyVal.vStr "Globex")]
        (DF.mk ["manufacturer_Name", "qty"]
          [[PyVal.vStr "46135", PyVal.vStr "7"], [PyVal.vStr "zzz", PyVal.vStr "8"]]) =
      ApplyResult.ok (DF.mk ["manufacturer_Name", "qty"]
        (([[PyVal.vStr "46135", PyVal.vStr "7"],
            [PyVal.vStr "zzz", PyVal.vStr "8"]] : List (List PyVal)).map
          (rowRewriteSpec
            [MapEntry.mk (some "46135") (PyVal.vStr "046135") (PyVal.vStr "Globex")] 0))) :=
  apply_mapping_frame _ _ 0 (by decide) (by decide) (by decide) (by unfold RectWF; decide)
    (by decide) (by decide) (by decide) (by decide)
